import Mathlib

/-!
Shallow embedding of the N-dimensional Game of Life from `src/main.rs`.

Coordinate vectors (`[i32; N]` in the source) are modelled as `List Int`
whose components lie in the `i32` range; `i32` addition (which wraps to
twos-complement on overflow in release builds) is modelled by `wrap`.
The `HashSet` of live cells is modelled as a `List` recording one possible
iteration order; all stated set-level properties are about membership, so
they are insensitive to that order.
-/

/-- Twos-complement wrap of an integer into the `i32` range
`[-2^31, 2^31)`, the behaviour of `i32` addition with overflow checks
disabled. -/
def wrap (x : Int) : Int := (x + 2 ^ 31) % 2 ^ 32 - 2 ^ 31

/-- Coordinate vector: the model of `Vector<N> = [i32; N]`. -/
abbrev Coord := List Int

/-- Every component is a representable `i32` value. -/
def InRange (v : Coord) : Prop := ∀ x ∈ v, -(2 ^ 31) ≤ x ∧ x < 2 ^ 31

instance (v : Coord) : Decidable (InRange v) := by
  unfold InRange; infer_instance

/-- Embedding of `vec_add`: componentwise `i32` addition (`res[i] += val`),
each component wrapping on overflow.  The const generics of the source force the
two inputs to have the same length N. -/
def vec_add (a b : Coord) : Coord := List.zipWith (fun x y => wrap (x + y)) a b

/-- The model of the `Life` struct: the live-cell set (as one iteration
order of the `HashSet`) and the cached neighbor-offset vector. -/
structure Life where
  cells : List Coord
  neighbors : List Coord

/-- One extension step in `gen_offsets`: append each of -1, 0, 1 to every
partial vector (the body of the `for _ in 1..N` loop). -/
def extendDim (ns : List Coord) : List Coord :=
  ns.flatMap (fun n => [n ++ [-1], n ++ [0], n ++ [1]])

/-- The partial-vector list after `k` extension steps, starting from the
1-dimensional base list `[[-1], [0], [1]]`. -/
def extendIter : Nat → List Coord
  | 0 => [[-1], [0], [1]]
  | k + 1 => extendDim (extendIter k)

/-- Embedding of `Life::gen_offsets`: run N-1 extension steps, then remove
the all-zero vector. -/
def Life.gen_offsets (N : Nat) : List Coord :=
  (extendIter (N - 1)).filter (fun v => decide (v ≠ List.replicate N 0))

/-- Embedding of `Life::new`: empty cell set, offsets computed once. -/
def Life.new (N : Nat) : Life :=
  { cells := [], neighbors := Life.gen_offsets N }

/-- Embedding of `Life::get`: membership in the live-cell set. -/
def Life.get (l : Life) (pos : Coord) : Bool := decide (pos ∈ l.cells)

/-- Embedding of `Life::create`: insert a position into the live-cell set
(`HashSet::insert`; a no-op when already present). -/
def Life.create (l : Life) (pos : Coord) : Life :=
  { l with cells := l.cells.insert pos }

/-- Modelled from the spec: `kill(pos)` is specified in §4.3 ("removes pos
from the live-cell set; idempotent") but no `kill` method is present in
`src/main.rs`; this is the set-removal it describes. -/
def Life.kill (l : Life) (pos : Coord) : Life :=
  { l with cells := l.cells.filter (fun c => decide (c ≠ pos)) }

/-- Embedding of `Life::count_neighbors`: the number of offsets `d` for
which `get (vec_add d pos)` holds. -/
def Life.count_neighbors (l : Life) (pos : Coord) : Nat :=
  (l.neighbors.filter (fun d => l.get (vec_add d pos))).length

/-- One iteration of the loop body of `Life::empty_with_neighbors`: the
batch of new map entries contributed by live cell `c`, skipping positions
already recorded in `count` and live positions. -/
def Life.ewnBatch (l : Life) (count : List (Coord × Nat)) (c : Coord) :
    List (Coord × Nat) :=
  ((l.neighbors.map (fun d => vec_add d c)).filter
      (fun pos => !(count.any (fun e => decide (e.1 = pos))) && !(l.get pos))).map
    (fun pos => (pos, l.count_neighbors pos))

/-- Embedding of `Life::empty_with_neighbors`: fold the batch step over the
live cells, modelling the `HashMap` as an association list. -/
def Life.empty_with_neighbors (l : Life) : List (Coord × Nat) :=
  l.cells.foldl (fun count c => count ++ l.ewnBatch count c) []

/-- Embedding of `Life::cycle`: survivors (live cells with neighbor count
2 or 3) together with births (recorded dead candidates with count 3)
replace the live-cell set; the offset cache is untouched. -/
def Life.cycle (l : Life) : Life :=
  let ns := l.empty_with_neighbors
  let newCells := (ns.filter (fun e => decide (e.2 = 3))).map (fun e => e.1)
  let survive := l.cells.filter
    (fun c => decide (l.count_neighbors c = 2) || decide (l.count_neighbors c = 3))
  { l with cells := survive ++ newCells }

/-! ### Scalar facts about `wrap` -/

lemma wrap_bounds (x : Int) : -(2 ^ 31) ≤ wrap x ∧ wrap x < 2 ^ 31 := by
  unfold wrap; omega

lemma wrap_eq_self {x : Int} (h1 : -(2 ^ 31) ≤ x) (h2 : x < 2 ^ 31) :
    wrap x = x := by
  unfold wrap; omega

lemma wrap_cancel {p : Int} (d : Int) (h1 : -(2 ^ 31) ≤ p) (h2 : p < 2 ^ 31) :
    wrap (-d + wrap (d + p)) = p := by
  unfold wrap; omega

lemma wrap_translate {c t d p : Int} (h1 : -(2 ^ 31) ≤ c) (h2 : c < 2 ^ 31) :
    wrap (c + t) = wrap (d + wrap (p + t)) ↔ c = wrap (d + p) := by
  unfold wrap; omega

lemma wrap_step_ne {d p : Int} (hd : d = -1 ∨ d = 0 ∨ d = 1) (hd0 : d ≠ 0) :
    wrap (d + p) ≠ p := by
  rcases hd with rfl | rfl | rfl <;> unfold wrap <;> omega

lemma wrap_step_inj {d1 d2 q : Int} (h1 : d1 = -1 ∨ d1 = 0 ∨ d1 = 1)
    (h2 : d2 = -1 ∨ d2 = 0 ∨ d2 = 1) (h : wrap (d1 + q) = wrap (d2 + q)) :
    d1 = d2 := by
  rcases h1 with rfl | rfl | rfl <;> rcases h2 with rfl | rfl | rfl <;>
    unfold wrap at h <;> omega

/-! ### The offset list: characterization, distinctness, size -/

lemma mem_extendDim {ns : List Coord} {v : Coord} :
    v ∈ extendDim ns ↔ ∃ n ∈ ns, ∃ d : Int, (d = -1 ∨ d = 0 ∨ d = 1) ∧ v = n ++ [d] := by
  simp only [extendDim, List.mem_flatMap, List.mem_cons, List.not_mem_nil, or_false]
  constructor
  · rintro ⟨n, hn, rfl | rfl | rfl⟩
    · exact ⟨n, hn, -1, by simp⟩
    · exact ⟨n, hn, 0, by simp⟩
    · exact ⟨n, hn, 1, by simp⟩
  · rintro ⟨n, hn, d, (rfl | rfl | rfl), rfl⟩ <;> exact ⟨n, hn, by simp⟩

lemma mem_extendIter {k : Nat} {v : Coord} :
    v ∈ extendIter k ↔ v.length = k + 1 ∧ ∀ x ∈ v, x = -1 ∨ x = 0 ∨ x = 1 := by
  induction k generalizing v with
  | zero =>
    constructor
    · intro hv
      simp only [extendIter, List.mem_cons, List.not_mem_nil, or_false] at hv
      rcases hv with rfl | rfl | rfl <;> simp
    · rintro ⟨hl, hx⟩
      match v, hl with
      | [x], _ =>
        rcases hx x (by simp) with rfl | rfl | rfl <;> simp [extendIter]
  | succ k ih =>
    rw [extendIter, mem_extendDim]
    constructor
    · rintro ⟨n, hn, d, hd, rfl⟩
      rw [ih] at hn
      refine ⟨by simp [hn.1], ?_⟩
      intro x hx
      rcases List.mem_append.1 hx with h | h
      · exact hn.2 x h
      · rw [List.mem_singleton] at h; subst h; exact hd
    · rintro ⟨hl, hx⟩
      have hv : v ≠ [] := by intro h; subst h; simp at hl
      refine ⟨v.dropLast, ?_, v.getLast hv, ?_, (List.dropLast_append_getLast hv).symm⟩
      · rw [ih]
        refine ⟨by simp [hl], fun x hx' => hx x (List.dropLast_subset v hx')⟩
      · exact hx _ (List.getLast_mem hv)

lemma nodup_extendIter (k : Nat) : (extendIter k).Nodup := by
  induction k with
  | zero => simp [extendIter]
  | succ k ih =>
    rw [extendIter, extendDim, List.nodup_flatMap]
    constructor
    · intro n _
      simp [List.nodup_cons]
    · refine ih.imp ?_
      intro a b hab
      intro x hxa hxb
      simp only [List.mem_cons, List.not_mem_nil, or_false] at hxa hxb
      rcases hxa with rfl | rfl | rfl <;> rcases hxb with h | h | h <;>
        exact hab (List.append_inj' h (by simp)).1

lemma length_extendDim (ns : List Coord) : (extendDim ns).length = 3 * ns.length := by
  induction ns with
  | nil => rfl
  | cons n ns ih =>
    simp only [extendDim, List.flatMap_cons] at ih ⊢
    simp [ih]
    omega

lemma length_extendIter (k : Nat) : (extendIter k).length = 3 ^ (k + 1) := by
  induction k with
  | zero => simp [extendIter]
  | succ k ih =>
    rw [extendIter, length_extendDim, ih]
    ring

lemma zero_mem_extendIter (k : Nat) : List.replicate (k + 1) 0 ∈ extendIter k := by
  rw [mem_extendIter]
  constructor
  · simp
  · intro x hx
    rw [List.eq_of_mem_replicate hx]
    simp

lemma mem_gen_offsets {N : Nat} (hN : 1 ≤ N) {v : Coord} :
    v ∈ Life.gen_offsets N ↔
      v.length = N ∧ (∀ x ∈ v, x = -1 ∨ x = 0 ∨ x = 1) ∧ v ≠ List.replicate N 0 := by
  rw [Life.gen_offsets, List.mem_filter, mem_extendIter, Nat.sub_add_cancel hN]
  simp only [decide_eq_true_eq]
  tauto

lemma nodup_gen_offsets (N : Nat) : (Life.gen_offsets N).Nodup :=
  (nodup_extendIter (N - 1)).filter _

lemma length_filter_ne_of_nodup {α : Type} [DecidableEq α] {l : List α} {z : α}
    (hn : l.Nodup) (hz : z ∈ l) :
    (l.filter (fun v => decide (v ≠ z))).length = l.length - 1 := by
  induction l with
  | nil => simp at hz
  | cons a l ih =>
    rcases List.mem_cons.1 hz with rfl | hz'
    · have hfix : l.filter (fun v => decide (v ≠ z)) = l := by
        apply List.filter_eq_self.2
        intro b hb
        simp only [decide_eq_true_eq]
        intro h
        exact (List.nodup_cons.1 hn).1 (h ▸ hb)
      rw [List.filter_cons, if_neg (by simp), hfix]
      simp
    · have ha : a ≠ z := fun h => (List.nodup_cons.1 hn).1 (h ▸ hz')
      have hlp : 1 ≤ l.length := List.length_pos.2 (List.ne_nil_of_mem hz')
      simp only [List.filter_cons, ha, decide_eq_true_eq, if_pos, List.length_cons]
      rw [if_pos (by simpa using ha)]
      simp only [List.length_cons, ih (List.nodup_cons.1 hn).2 hz']
      omega

lemma length_gen_offsets {N : Nat} (hN : 1 ≤ N) :
    (Life.gen_offsets N).length = 3 ^ N - 1 := by
  have hz : List.replicate N 0 ∈ extendIter (N - 1) := by
    have := zero_mem_extendIter (N - 1)
    rwa [Nat.sub_add_cancel hN] at this
  rw [Life.gen_offsets, length_filter_ne_of_nodup (nodup_extendIter _) hz,
    length_extendIter, Nat.sub_add_cancel hN]

lemma neg_mem_gen_offsets {N : Nat} (hN : 1 ≤ N) {d : Coord}
    (hd : d ∈ Life.gen_offsets N) :
    d.map (fun x => -x) ∈ Life.gen_offsets N := by
  rw [mem_gen_offsets hN] at hd ⊢
  obtain ⟨hl, hcomp, hz⟩ := hd
  refine ⟨by simp [hl], ?_, ?_⟩
  · intro x hx
    rcases List.mem_map.1 hx with ⟨y, hy, rfl⟩
    rcases hcomp y hy with rfl | rfl | rfl <;> simp
  · intro h
    apply hz
    rw [List.eq_replicate_iff]
    refine ⟨hl, ?_⟩
    intro x hx
    have hmem : -x ∈ List.replicate N (0 : Int) := h ▸ List.mem_map_of_mem _ hx
    have := List.eq_of_mem_replicate hmem
    omega

/-! ### Componentwise facts about `vec_add` -/

lemma inRange_cons {y : Int} {p : Coord} :
    InRange (y :: p) ↔ (-(2 ^ 31) ≤ y ∧ y < 2 ^ 31) ∧ InRange p := by
  simp [InRange, List.forall_mem_cons]

lemma length_vec_add (a b : Coord) :
    (vec_add a b).length = min a.length b.length := by
  simp [vec_add]

lemma vec_add_neg_cancel {d p : Coord} (h : d.length = p.length) (hp : InRange p) :
    vec_add (d.map (fun x => -x)) (vec_add d p) = p := by
  induction d generalizing p with
  | nil =>
    have : p = [] := by simpa using h.symm
    subst this; rfl
  | cons x d ih =>
    cases p with
    | nil => simp at h
    | cons y p =>
      rw [inRange_cons] at hp
      simp only [vec_add, List.map_cons, List.zipWith_cons_cons] at ih ⊢
      rw [List.cons_eq_cons]
      exact ⟨wrap_cancel x hp.1.1 hp.1.2, ih (by simpa using h) hp.2⟩

lemma vec_add_translate {c t d p : Coord} (ht : t.length = c.length)
    (hd : d.length = c.length) (hp : p.length = c.length) (hc : InRange c) :
    vec_add c t = vec_add d (vec_add p t) ↔ c = vec_add d p := by
  induction c generalizing t d p with
  | nil =>
    simp only [List.length_nil, List.length_eq_zero] at ht hd hp
    subst ht; subst hd; subst hp
    rfl
  | cons x c ih =>
    cases t with
    | nil => simp at ht
    | cons a t =>
      cases d with
      | nil => simp at hd
      | cons b d =>
        cases p with
        | nil => simp at hp
        | cons q p =>
          rw [inRange_cons] at hc
          simp only [vec_add, List.zipWith_cons_cons] at ih ⊢
          rw [List.cons_eq_cons, List.cons_eq_cons]
          exact and_congr (wrap_translate hc.1.1 hc.1.2)
            (ih (by simpa using ht) (by simpa using hd) (by simpa using hp) hc.2)

lemma vec_add_eq_self {d p : Coord} (h : d.length = p.length)
    (hcomp : ∀ x ∈ d, x = -1 ∨ x = 0 ∨ x = 1) (hp : InRange p) :
    vec_add d p = p ↔ d = List.replicate p.length 0 := by
  induction d generalizing p with
  | nil =>
    have : p = [] := by simpa using h.symm
    subst this; simp [vec_add]
  | cons x d ih =>
    cases p with
    | nil => simp at h
    | cons y p =>
      rw [inRange_cons] at hp
      simp only [vec_add, List.zipWith_cons_cons, List.length_cons,
        List.replicate_succ] at ih ⊢
      rw [List.cons_eq_cons, List.cons_eq_cons]
      apply and_congr
      · constructor
        · intro hxy
          by_contra hx0
          exact wrap_step_ne (hcomp x (by simp)) hx0 hxy
        · rintro rfl
          simpa using wrap_eq_self hp.1.1 hp.1.2
      · exact ih (by simpa using h) (fun z hz => hcomp z (by simp [hz])) hp.2

lemma vec_add_left_inj {d1 d2 q : Coord} (h1 : d1.length = q.length)
    (h2 : d2.length = q.length)
    (hc1 : ∀ x ∈ d1, x = -1 ∨ x = 0 ∨ x = 1)
    (hc2 : ∀ x ∈ d2, x = -1 ∨ x = 0 ∨ x = 1)
    (h : vec_add d1 q = vec_add d2 q) : d1 = d2 := by
  induction q generalizing d1 d2 with
  | nil =>
    simp only [List.length_nil, List.length_eq_zero] at h1 h2
    rw [h1, h2]
  | cons y q ih =>
    cases d1 with
    | nil => simp at h1
    | cons a d1 =>
      cases d2 with
      | nil => simp at h2
      | cons b d2 =>
        simp only [vec_add, List.zipWith_cons_cons] at h
        rw [List.cons_eq_cons] at h ⊢
        refine ⟨wrap_step_inj (hc1 a (by simp)) (hc2 b (by simp)) h.1, ?_⟩
        exact ih (by simpa using h1) (by simpa using h2)
          (fun z hz => hc1 z (by simp [hz])) (fun z hz => hc2 z (by simp [hz])) h.2

/-! ### Characterizing the dead-candidate map and the cycle result -/

lemma mem_ewnBatch {l : Life} {count : List (Coord × Nat)} {c q : Coord} {m : Nat} :
    (q, m) ∈ l.ewnBatch count c ↔
      (∃ d ∈ l.neighbors, q = vec_add d c) ∧ (∀ e ∈ count, e.1 ≠ q) ∧
        q ∉ l.cells ∧ m = l.count_neighbors q := by
  simp only [Life.ewnBatch, List.mem_map, List.mem_filter, Bool.and_eq_true,
    Bool.not_eq_true', List.any_eq_false, decide_eq_false_iff_not, Life.get,
    decide_eq_true_eq, Prod.mk.injEq]
  constructor
  · rintro ⟨pos, ⟨⟨d, hd, rfl⟩, h1, h2⟩, rfl, rfl⟩
    exact ⟨⟨d, hd, rfl⟩, h1, h2, rfl⟩
  · rintro ⟨⟨d, hd, rfl⟩, h1, h2, rfl⟩
    exact ⟨_, ⟨⟨d, hd, rfl⟩, h1, h2⟩, rfl, rfl⟩

lemma mem_ewn_foldl (l : Life) (todo : List Coord) :
    ∀ (acc : List (Coord × Nat)) (p : Coord) (n : Nat),
      (p, n) ∈ todo.foldl (fun count c => count ++ l.ewnBatch count c) acc ↔
        ((p, n) ∈ acc ∨
          (p ∉ l.cells ∧ (∃ c ∈ todo, ∃ d ∈ l.neighbors, p = vec_add d c) ∧
            n = l.count_neighbors p ∧ ∀ e ∈ acc, e.1 ≠ p)) := by
  induction todo with
  | nil =>
    intro acc p n
    simp
  | cons c todo ih =>
    intro acc p n
    rw [List.foldl_cons, ih]
    constructor
    · rintro (hmem | ⟨hdead, ⟨c', hc', hd⟩, hn, hkey⟩)
      · rcases List.mem_append.1 hmem with h | h
        · left; exact h
        · rw [mem_ewnBatch] at h
          obtain ⟨⟨d, hd, rfl⟩, hkey, hdead, rfl⟩ := h
          right
          exact ⟨hdead, ⟨c, by simp, d, hd, rfl⟩, rfl, hkey⟩
      · right
        refine ⟨hdead, ⟨c', by simp [hc'], hd⟩, hn, ?_⟩
        intro e he
        exact hkey e (List.mem_append.2 (.inl he))
    · rintro (hmem | ⟨hdead, ⟨c', hc', d, hd, rfl⟩, hn, hkey⟩)
      · left; exact List.mem_append.2 (.inl hmem)
      · rcases List.mem_cons.1 hc' with rfl | hc'
        · left
          refine List.mem_append.2 (.inr ?_)
          rw [mem_ewnBatch]
          exact ⟨⟨d, hd, rfl⟩, hkey, hdead, hn⟩
        · by_cases hb : ∀ e ∈ l.ewnBatch acc c, e.1 ≠ vec_add d c'
          · right
            refine ⟨hdead, ⟨c', hc', d, hd, rfl⟩, hn, ?_⟩
            intro e he
            rcases List.mem_append.1 he with h | h
            · exact hkey e h
            · exact hb e h
          · push_neg at hb
            obtain ⟨e, he, hep⟩ := hb
            obtain ⟨q, m⟩ := e
            rw [mem_ewnBatch] at he
            obtain ⟨⟨d2, hd2, hq2⟩, hkeyq, hdeadq, hm⟩ := he
            simp only at hep
            subst hep
            left
            refine List.mem_append.2 (.inr ?_)
            rw [mem_ewnBatch]
            exact ⟨⟨d2, hd2, hq2⟩, hkey, hdead, hn⟩

lemma mem_empty_with_neighbors {l : Life} {p : Coord} {n : Nat} :
    (p, n) ∈ l.empty_with_neighbors ↔
      p ∉ l.cells ∧ (∃ c ∈ l.cells, ∃ d ∈ l.neighbors, p = vec_add d c) ∧
        n = l.count_neighbors p := by
  rw [Life.empty_with_neighbors, mem_ewn_foldl]
  simp

lemma mem_cycle {l : Life} {p : Coord} :
    p ∈ l.cycle.cells ↔
      (p ∈ l.cells ∧ (l.count_neighbors p = 2 ∨ l.count_neighbors p = 3)) ∨
      (p ∉ l.cells ∧ (∃ c ∈ l.cells, ∃ d ∈ l.neighbors, p = vec_add d c) ∧
        l.count_neighbors p = 3) := by
  simp only [Life.cycle, List.mem_append, List.mem_filter, List.mem_map,
    Bool.or_eq_true, decide_eq_true_eq]
  constructor
  · rintro (⟨hmem, hcnt⟩ | ⟨⟨q, m⟩, ⟨hewn, h3⟩, rfl⟩)
    · exact .inl ⟨hmem, hcnt⟩
    · rw [mem_empty_with_neighbors] at hewn
      subst h3
      exact .inr ⟨hewn.1, hewn.2.1, hewn.2.2.symm⟩
  · rintro (⟨hmem, hcnt⟩ | ⟨hdead, hadj, hcnt⟩)
    · exact .inl ⟨hmem, hcnt⟩
    · refine .inr ⟨(p, 3), ⟨?_, rfl⟩, rfl⟩
      rw [mem_empty_with_neighbors]
      exact ⟨hdead, hadj, hcnt.symm⟩

lemma count_neighbors_congr {l1 l2 : Life} (hn : l1.neighbors = l2.neighbors)
    (h : ∀ p, p ∈ l1.cells ↔ p ∈ l2.cells) (pos : Coord) :
    l1.count_neighbors pos = l2.count_neighbors pos := by
  unfold Life.count_neighbors Life.get
  rw [hn]
  congr 1
  apply List.filter_congr
  intro d _
  simp [h]

lemma exists_live_neighbor_of_count_ne_zero {l : Life} {pos : Coord}
    (h : l.count_neighbors pos ≠ 0) :
    ∃ d ∈ l.neighbors, vec_add d pos ∈ l.cells := by
  unfold Life.count_neighbors at h
  obtain ⟨x, hx⟩ := List.exists_mem_of_ne_nil _
    (List.length_pos.1 (Nat.pos_of_ne_zero h))
  rw [List.mem_filter, Life.get, decide_eq_true_eq] at hx
  exact ⟨x, hx.1, hx.2⟩

lemma two_mem_of_one_lt_length {α : Type} {xs : List α} (hn : xs.Nodup)
    (h : 1 < xs.length) : ∃ a ∈ xs, ∃ b ∈ xs, a ≠ b := by
  match xs, hn, h with
  | a :: b :: t, hn, _ =>
    refine ⟨a, by simp, b, by simp, ?_⟩
    intro hab
    exact (List.nodup_cons.1 hn).1 (hab ▸ List.mem_cons_self b t)

lemma singleton_count_le_one {N : Nat} (hN : 1 ≤ N) {p q : Coord}
    (hq : q.length = N) :
    Life.count_neighbors ⟨[p], Life.gen_offsets N⟩ q ≤ 1 := by
  by_contra hc
  push_neg at hc
  unfold Life.count_neighbors at hc
  have hnodup : ((Life.gen_offsets N).filter
      (fun d => Life.get ⟨[p], Life.gen_offsets N⟩ (vec_add d q))).Nodup :=
    (nodup_gen_offsets N).filter _
  obtain ⟨a, ha, b, hb, hab⟩ := two_mem_of_one_lt_length hnodup hc
  rw [List.mem_filter] at ha hb
  have ha2 := ha.2
  have hb2 := hb.2
  simp only [Life.get, decide_eq_true_eq, List.mem_cons, List.not_mem_nil,
    or_false] at ha2 hb2
  have hca := (mem_gen_offsets hN).1 ha.1
  have hcb := (mem_gen_offsets hN).1 hb.1
  exact hab (vec_add_left_inj (hca.1.trans hq.symm) (hcb.1.trans hq.symm)
    hca.2.1 hcb.2.1 (ha2.trans hb2.symm))

lemma inRange_vec_add (a b : Coord) : InRange (vec_add a b) := by
  induction a generalizing b with
  | nil => intro x hx; simp [vec_add] at hx
  | cons x a ih =>
    cases b with
    | nil => intro x hx; simp [vec_add] at hx
    | cons y b =>
      simp only [vec_add, List.zipWith_cons_cons] at ih ⊢
      rw [inRange_cons]
      exact ⟨wrap_bounds (x + y), ih b⟩

/-! ### Claim theorems -/

/-- C1: for every Board, after one `cycle` a position is live iff it was
live with neighbor count 2 or 3, or dead with neighbor count exactly 3. -/
theorem cycle_live_iff (N : Nat) (l : Life) (hN : 1 ≤ N)
    (hnb : l.neighbors = Life.gen_offsets N)
    (p : Coord) (hp : p.length = N) (hpr : InRange p) :
    p ∈ l.cycle.cells ↔
      ((p ∈ l.cells ∧ (l.count_neighbors p = 2 ∨ l.count_neighbors p = 3)) ∨
       (p ∉ l.cells ∧ l.count_neighbors p = 3)) := by
  rw [mem_cycle]
  constructor
  · rintro (h | ⟨hdead, _, hcnt⟩)
    · exact .inl h
    · exact .inr ⟨hdead, hcnt⟩
  · rintro (h | ⟨hdead, hcnt⟩)
    · exact .inl h
    · refine .inr ⟨hdead, ?_, hcnt⟩
      obtain ⟨d, hd, hmem⟩ :=
        @exists_live_neighbor_of_count_ne_zero l p (by omega)
      rw [hnb] at hd
      have hdc := (mem_gen_offsets hN).1 hd
      refine ⟨vec_add d p, hmem, d.map (fun x => -x), ?_, ?_⟩
      · rw [hnb]
        exact neg_mem_gen_offsets hN hd
      · exact (vec_add_neg_cancel (hdc.1.trans hp.symm) hpr).symm

/-- Witness for C1 at the 2-dimensional blinker and the position (1,0). -/
theorem cycle_live_iff_witness :
    (1 ≤ 2 ∧ ([1, 0] : Coord).length = 2 ∧ InRange [1, 0]) ∧
      ([1, 0] ∈ (Life.mk [[0, 1], [0, 0], [0, -1]] (Life.gen_offsets 2)).cycle.cells ↔
        (([1, 0] ∈ ([[0, 1], [0, 0], [0, -1]] : List Coord) ∧
            ((Life.mk [[0, 1], [0, 0], [0, -1]] (Life.gen_offsets 2)).count_neighbors [1, 0] = 2 ∨
             (Life.mk [[0, 1], [0, 0], [0, -1]] (Life.gen_offsets 2)).count_neighbors [1, 0] = 3)) ∨
         ([1, 0] ∉ ([[0, 1], [0, 0], [0, -1]] : List Coord) ∧
            (Life.mk [[0, 1], [0, 0], [0, -1]] (Life.gen_offsets 2)).count_neighbors [1, 0] = 3))) :=
  ⟨⟨by decide, by decide, by decide⟩,
    cycle_live_iff 2 (Life.mk [[0, 1], [0, 0], [0, -1]] (Life.gen_offsets 2))
      (by decide) rfl [1, 0] (by decide) (by decide)⟩

/-- C2: for N ≥ 1, `gen_offsets` yields exactly 3^N - 1 pairwise-distinct
vectors, each of length N with components in {-1, 0, 1}, none of them the
all-zero vector. -/
theorem gen_offsets_spec (N : Nat) (hN : 1 ≤ N) :
    (Life.gen_offsets N).length = 3 ^ N - 1 ∧ (Life.gen_offsets N).Nodup ∧
      ∀ v ∈ Life.gen_offsets N,
        v.length = N ∧ (∀ x ∈ v, x = -1 ∨ x = 0 ∨ x = 1) ∧
          v ≠ List.replicate N 0 :=
  ⟨length_gen_offsets hN, nodup_gen_offsets N,
    fun _ hv => (mem_gen_offsets hN).1 hv⟩

/-- Witness for C2 at N = 2. -/
theorem gen_offsets_spec_witness :
    1 ≤ 2 ∧
      ((Life.gen_offsets 2).length = 3 ^ 2 - 1 ∧ (Life.gen_offsets 2).Nodup ∧
        ∀ v ∈ Life.gen_offsets 2,
          v.length = 2 ∧ (∀ x ∈ v, x = -1 ∨ x = 0 ∨ x = 1) ∧
            v ≠ List.replicate 2 0) :=
  ⟨by decide, gen_offsets_spec 2 (by decide)⟩

/-- C3: the cycle result depends only on the live-cell set: two boards for
the same N whose cell lists have the same members produce cycle results
with the same members, regardless of enumeration (iteration) order. -/
theorem cycle_deterministic (N : Nat) (l1 l2 : Life)
    (h1 : l1.neighbors = Life.gen_offsets N) (h2 : l2.neighbors = Life.gen_offsets N)
    (hset : ∀ p, p ∈ l1.cells ↔ p ∈ l2.cells) (q : Coord) :
    q ∈ l1.cycle.cells ↔ q ∈ l2.cycle.cells := by
  have hn : l1.neighbors = l2.neighbors := h1.trans h2.symm
  have hcnt := count_neighbors_congr hn hset
  rw [mem_cycle, mem_cycle]
  simp only [hset, hcnt, hn]

/-- Witness for C3: the same two-cell set listed in two different orders. -/
theorem cycle_deterministic_witness :
    ((∀ p : Coord, p ∈ ([[0, 0], [1, 1]] : List Coord) ↔
        p ∈ ([[1, 1], [0, 0]] : List Coord)) ∧
      (Life.mk [[0, 0], [1, 1]] (Life.gen_offsets 2)).neighbors = Life.gen_offsets 2) ∧
      ([0, 1] ∈ (Life.mk [[0, 0], [1, 1]] (Life.gen_offsets 2)).cycle.cells ↔
        [0, 1] ∈ (Life.mk [[1, 1], [0, 0]] (Life.gen_offsets 2)).cycle.cells) :=
  ⟨⟨by intro p; simp only [List.mem_cons, List.not_mem_nil, or_false]; tauto, rfl⟩,
    cycle_deterministic 2 (Life.mk [[0, 0], [1, 1]] (Life.gen_offsets 2))
      (Life.mk [[1, 1], [0, 0]] (Life.gen_offsets 2)) rfl rfl
      (by intro p; simp only [List.mem_cons, List.not_mem_nil, or_false]; tauto)
      [0, 1]⟩

/-- C4: `count_neighbors` is translation-invariant: translating every live
cell by t and querying at `vec_add p t` gives the same count as querying
the original board at p. -/
theorem count_neighbors_translation_invariant (N : Nat) (l : Life) (hN : 1 ≤ N)
    (hnb : l.neighbors = Life.gen_offsets N)
    (hcells : ∀ c ∈ l.cells, c.length = N ∧ InRange c)
    (t p : Coord) (ht : t.length = N) (hp : p.length = N) :
    Life.count_neighbors
        ⟨l.cells.map (fun c => vec_add c t), l.neighbors⟩ (vec_add p t) =
      l.count_neighbors p := by
  unfold Life.count_neighbors Life.get
  simp only
  congr 1
  apply List.filter_congr
  intro d hd
  rw [hnb] at hd
  have hdc := (mem_gen_offsets hN).1 hd
  rw [decide_eq_decide, List.mem_map]
  constructor
  · rintro ⟨c, hc, hceq⟩
    have hc' := hcells c hc
    have := (vec_add_translate (ht.trans hc'.1.symm) (hdc.1.trans hc'.1.symm)
      (hp.trans hc'.1.symm) hc'.2).1 hceq
    rw [← this]
    exact hc
  · intro hc
    refine ⟨vec_add d p, hc, ?_⟩
    have hlen : (vec_add d p).length = N := by
      rw [length_vec_add, hdc.1, hp]
      simp
    exact (vec_add_translate (ht.trans hlen.symm) (hdc.1.trans hlen.symm)
      (hp.trans hlen.symm) (inRange_vec_add d p)).2 rfl

/-- Witness for C4: the blinker translated by (5, -7), queried at the
translate of (1, 0). -/
theorem count_neighbors_translation_invariant_witness :
    (1 ≤ 2 ∧
      (∀ c ∈ ([[0, 1], [0, 0], [0, -1]] : List Coord), c.length = 2 ∧ InRange c) ∧
      ([5, -7] : Coord).length = 2 ∧ ([1, 0] : Coord).length = 2) ∧
      Life.count_neighbors
          ⟨([[0, 1], [0, 0], [0, -1]] : List Coord).map (fun c => vec_add c [5, -7]),
            (Life.mk [[0, 1], [0, 0], [0, -1]] (Life.gen_offsets 2)).neighbors⟩
          (vec_add [1, 0] [5, -7]) =
        (Life.mk [[0, 1], [0, 0], [0, -1]] (Life.gen_offsets 2)).count_neighbors [1, 0] :=
  ⟨⟨by decide, by decide, by decide, by decide⟩,
    count_neighbors_translation_invariant 2
      (Life.mk [[0, 1], [0, 0], [0, -1]] (Life.gen_offsets 2)) (by decide) rfl
      (by decide) [5, -7] [1, 0] (by decide) (by decide)⟩

/-- C5: `kill` removes the position from the live-cell set and is
idempotent; `create p` then `kill p` then `get p` returns false. -/
theorem kill_spec (l : Life) (p q : Coord) :
    p ∉ (l.kill p).cells ∧ (l.kill p).kill p = l.kill p ∧
      ((l.create q).kill q).get q = false := by
  refine ⟨?_, ?_, ?_⟩
  · simp [Life.kill, List.mem_filter]
  · obtain ⟨cs, nb⟩ := l
    simp [Life.kill, List.filter_filter]
  · simp [Life.get, Life.kill, Life.create, List.mem_filter]

/-- C6 counterexample: at a = [2147483647] (= i32::MAX) and b = [1],
`vec_add` wraps to -2147483648 and does not produce the exact
componentwise sum 2147483648. -/
theorem vec_add_overflow_counterexample :
    vec_add [2147483647] [1] = [-2147483648] ∧
      vec_add [2147483647] [1] ≠
        List.zipWith (fun x y : Int => x + y) [2147483647] [1] := by
  constructor <;> decide

/-- C6 amended: `vec_add` computes each component modulo 2^32 (wrapping
twos-complement i32 addition); it equals the exact componentwise sum
precisely when every componentwise sum fits in the i32 range, and there is
no widening, saturating, or checked-error path. -/
theorem vec_add_exact_of_no_overflow (a b : Coord)
    (h : InRange (List.zipWith (fun x y : Int => x + y) a b)) :
    vec_add a b = List.zipWith (fun x y : Int => x + y) a b := by
  induction a generalizing b with
  | nil => rfl
  | cons x a ih =>
    cases b with
    | nil => rfl
    | cons y b =>
      rw [List.zipWith_cons_cons, inRange_cons] at h
      simp only [vec_add, List.zipWith_cons_cons] at ih ⊢
      rw [List.cons_eq_cons]
      exact ⟨wrap_eq_self h.1.1 h.1.2, ih b h.2⟩

/-- Witness for the amended C6 at a small non-overflowing input. -/
theorem vec_add_exact_of_no_overflow_witness :
    InRange (List.zipWith (fun x y : Int => x + y) [1, 2] [3, 4]) ∧
      vec_add [1, 2] [3, 4] = List.zipWith (fun x y : Int => x + y) [1, 2] [3, 4] :=
  ⟨by decide, vec_add_exact_of_no_overflow [1, 2] [3, 4] (by decide)⟩

/-- C7: a Board with exactly one live cell is empty after one cycle. -/
theorem single_cell_extinction (N : Nat) (p : Coord) (hN : 1 ≤ N)
    (hp : p.length = N) (hpr : InRange p) :
    ((Life.new N).create p).cycle.cells = [] := by
  have hb : (Life.new N).create p = ⟨[p], Life.gen_offsets N⟩ := by
    simp [Life.new, Life.create, List.insert]
  rw [hb, List.eq_nil_iff_forall_not_mem]
  intro q hq
  rw [mem_cycle] at hq
  rcases hq with ⟨hmem, hcnt⟩ | ⟨hdead, ⟨c, hc, d, hd, rfl⟩, hcnt⟩
  · simp only [List.mem_cons, List.not_mem_nil, or_false] at hmem
    subst hmem
    have h0 : Life.count_neighbors ⟨[q], Life.gen_offsets N⟩ q = 0 := by
      unfold Life.count_neighbors Life.get
      rw [List.length_eq_zero, List.filter_eq_nil_iff]
      intro d hd
      simp only [List.mem_cons, List.not_mem_nil, or_false, decide_eq_true_eq,
        Bool.not_eq_true]
      intro hcontra
      have hdc := (mem_gen_offsets hN).1 hd
      rw [vec_add_eq_self (by rw [hdc.1, hp]) hdc.2.1 hpr] at hcontra
      exact hdc.2.2 (by rw [← hp]; exact hcontra)
    omega
  · have hlen : (vec_add d c).length = N := by
      simp only [List.mem_cons, List.not_mem_nil, or_false] at hc
      subst hc
      have hdc := (mem_gen_offsets hN).1 hd
      rw [length_vec_add, hdc.1, hp]
      simp
    have hle := singleton_count_le_one hN hlen (p := p)
    omega

/-- Witness for C7 at N = 2 and p = (0, 0). -/
theorem single_cell_extinction_witness :
    (1 ≤ 2 ∧ ([0, 0] : Coord).length = 2 ∧ InRange [0, 0]) ∧
      ((Life.new 2).create [0, 0]).cycle.cells = [] :=
  ⟨⟨by decide, by decide, by decide⟩,
    single_cell_extinction 2 [0, 0] (by decide) (by decide) (by decide)⟩

/-- C8: for N = 2, the rod {(0,-1), (0,0), (0,1)} returns to its original
live-cell set after exactly two cycles and differs from it after one. -/
theorem rod_oscillator :
    (Life.cycle (Life.cycle
        ⟨[[0, -1], [0, 0], [0, 1]], Life.gen_offsets 2⟩)).cells.toFinset =
      ([[0, -1], [0, 0], [0, 1]] : List Coord).toFinset ∧
    (Life.cycle ⟨[[0, -1], [0, 0], [0, 1]], Life.gen_offsets 2⟩).cells.toFinset ≠
      ([[0, -1], [0, 0], [0, 1]] : List Coord).toFinset := by
  constructor <;> decide

/-- C9: the offset cache is written once by `new` (from `gen_offsets`) and
is left unchanged by `create`, `kill`, and `cycle` (`get` and
`count_neighbors` are non-mutating value queries). -/
theorem neighbors_frame_invariant (N : Nat) (l : Life) (p : Coord) :
    (Life.new N).neighbors = Life.gen_offsets N ∧
      (l.create p).neighbors = l.neighbors ∧
      (l.kill p).neighbors = l.neighbors ∧
      l.cycle.neighbors = l.neighbors :=
  ⟨rfl, rfl, rfl, rfl⟩

/-- C10: locality — every cell live after a cycle was live before or is at
a Moore offset (components in {-1, 0, 1}) of a previously-live cell; and
the cycle of an empty board is empty. -/
theorem cycle_locality (N : Nat) (l : Life) (hN : 1 ≤ N)
    (hnb : l.neighbors = Life.gen_offsets N) (p : Coord)
    (hp : p ∈ l.cycle.cells) :
    (p ∈ l.cells ∨ ∃ c ∈ l.cells, ∃ d ∈ Life.gen_offsets N,
        (∀ x ∈ d, x = -1 ∨ x = 0 ∨ x = 1) ∧ p = vec_add d c) ∧
      (Life.cycle ⟨[], Life.gen_offsets N⟩).cells = [] := by
  constructor
  · rw [mem_cycle] at hp
    rcases hp with ⟨hmem, _⟩ | ⟨_, ⟨c, hc, d, hd, rfl⟩, _⟩
    · exact .inl hmem
    · rw [hnb] at hd
      exact .inr ⟨c, hc, d, hd, ((mem_gen_offsets hN).1 hd).2.1, rfl⟩
  · rfl

/-- Witness for C10 at the blinker and the newborn cell (1, 0). -/
theorem cycle_locality_witness :
    (1 ≤ 2 ∧
      [1, 0] ∈ (Life.mk [[0, 1], [0, 0], [0, -1]] (Life.gen_offsets 2)).cycle.cells) ∧
      (([1, 0] ∈ ([[0, 1], [0, 0], [0, -1]] : List Coord) ∨
        ∃ c ∈ ([[0, 1], [0, 0], [0, -1]] : List Coord), ∃ d ∈ Life.gen_offsets 2,
          (∀ x ∈ d, x = -1 ∨ x = 0 ∨ x = 1) ∧ [1, 0] = vec_add d c) ∧
        (Life.cycle ⟨[], Life.gen_offsets 2⟩).cells = []) :=
  ⟨⟨by decide, by decide⟩,
    cycle_locality 2 (Life.mk [[0, 1], [0, 0], [0, -1]] (Life.gen_offsets 2))
      (by decide) rfl [1, 0] (by decide)⟩
